import Mathlib

/-!
Verification development for the sky event-storage engine.

The first part of this file is a shallow embedding of the C sources
(object_file.c — provided unnamed — and src/sky_bench.c): pure Lean
functions mirror the C functions statement by statement, with files
modelled as byte lists, `FILE *` streams as an explicit cursor over a
byte list, and fallible functions returning `Except`/`Int` return codes.

The second part models, from the specification, the components whose
bodies in the source are only TODO comments (the lock manager, the
event-insertion/block-split algorithm, the Cursor/PathIterator readers
and the dictionary writer).  Each such definition carries a doc comment
starting with `Modelled from the spec:`.
-/

/-! ### Byte-stream model of C stdio -/

/-- A `FILE *` opened for reading: the file's bytes, the current
position, and the end-of-file indicator (set only once a read attempts
to go past the last byte, as with `feof`). -/
structure CStream where
  bytes : List Nat
  pos : Nat
  eofFlag : Bool
deriving DecidableEq

/-- `fread(ptr, size, nitems, stream)`: transfers at most
`size * nitems` bytes, returns the number of *complete* items read
together with the bytes transferred, advances the position by the bytes
actually available, and raises the end-of-file indicator on a short
read. -/
def CStream.fread (s : CStream) (size nitems : Nat) : Nat × List Nat × CStream :=
  let want := size * nitems
  let avail := s.bytes.length - s.pos
  let got := min want avail
  ⟨got / size, (s.bytes.drop s.pos).take got,
    ⟨s.bytes, s.pos + got, s.eofFlag || decide (got < want)⟩⟩

/-- Value of a little-endian byte sequence (the bytes an `fread` into a
`uint32_t`/`uint16_t` deposits, low byte first; a short read leaves the
high bytes at their prior value, which is 0 for the zero-initialised
`count` variable). -/
def leVal (bs : List Nat) : Nat := bs.foldr (fun b acc => b + 256 * acc) 0

/-! ### Embedded code: object_file.c -/

/-- Embeds `file_exists` (object_file.c:44): returns the return code of
`stat`, which is `0` when the file exists and `-1` when it does not.
Note the function therefore returns *zero* exactly when the file
exists. -/
def file_exists (file : Option (List Nat)) : Int :=
  match file with
  | some _ => 0
  | none => -1

/-- Embeds the record-reading loop of `load_actions`
(object_file.c:99-110), run against an open stream.  Each iteration
(while `i < count && !feof(file)`):
  * `fread(&actions[i].id, sizeof(uint32_t), 1, file)`;
  * `fread(&length, sizeof(uint16_t), 1, file)`;
  * `buffer = calloc(1, length+1)`;
  * `check(fread(&buffer, sizeof(length), 1, file) == length, "Corrupt actions file")`
    — note this reads `sizeof(uint16_t) = 2` bytes into the *pointer
    variable* `buffer` and compares fread's item count (0 or 1) with
    `length`; on mismatch control jumps to `error` and the function
    returns -1 (here `Except.error ()`).
The returned records pair each action id with the bytes that third
`fread` consumed (in C those bytes overwrite the pointer `buffer`, so
the bstring made from it is indeterminate; the error/success outcome,
which is all the theorems below use, is deterministic).  The fuel
argument is `count - i`. -/
def read_actions_records : Nat → CStream → List (Nat × List Nat) →
    Except Unit (List (Nat × List Nat))
  | 0, _, acc => Except.ok acc
  | rem + 1, s, acc =>
    if s.eofFlag then Except.ok acc
    else
      let r1 := s.fread 4 1
      let id := leVal r1.2.1
      let r2 := r1.2.2.fread 2 1
      let nameLen := leVal r2.2.1
      let r3 := r2.2.2.fread 2 1
      if r3.1 = nameLen then
        read_actions_records rem r3.2.2 (acc ++ [(id, r3.2.1)])
      else
        Except.error ()

/-- Embeds lines 91-113 of `load_actions` as they would execute on an
open actions file: read the 4-byte record count (unchecked `fread`)
then run the record loop. -/
def read_actions_file (bytes : List Nat) : Except Unit (List (Nat × List Nat)) :=
  let s0 : CStream := ⟨bytes, 0, false⟩
  let r := s0.fread 4 1
  read_actions_records (leVal r.2.1) r.2.2 []

/-- Embeds `load_actions` (object_file.c:78-130).  The argument is the
actions file's content, `none` when the file does not exist.  Control
flow of the C function:
  * `if(file_exists(path))` — taken exactly when `stat` returned
    nonzero, i.e. when the file does *not* exist; inside the branch
    `fopen` on the missing file yields NULL, `check(file, ...)` fails
    and the function returns -1 (`Except.error ()`).
  * When the file exists the branch — including the whole record loop,
    embedded above as `read_actions_records` — is skipped; the function
    stores `count`, still 0, in `object_file->action_count` (the
    `actions` pointer is left uninitialised) and returns 0.
The success value is the stored `action_count`. -/
def load_actions (file : Option (List Nat)) : Except Unit Nat :=
  if file_exists file ≠ 0 then
    Except.error ()
  else
    Except.ok 0

/-- Embeds `load_header` (object_file.c:59): the body is a TODO stub
returning 0. -/
def load_header : Int := 0

/-- Embeds `load_properties` (object_file.c:139): the body is a TODO
stub returning 0. -/
def load_properties : Int := 0

/-- Embeds the `Database` struct: a path (bstring). -/
structure Database where
  path : String
deriving DecidableEq

/-- Embeds the `ObjectFile` struct fields assigned by
`ObjectFile_create` (object_file.c:185-211).  Pointer fields that the
code only ever sets to NULL here are modelled as `Option Unit`. -/
structure ObjectFile where
  name : String
  path : String
  infos : Option Unit
  block_count : Nat
  actions : Option Unit
  action_count : Nat
  properties : Option Unit
  property_count : Nat
deriving DecidableEq

/-- Embeds `ObjectFile_create` (object_file.c:185-211): `check`s that
`database` and `name` are non-NULL (returning NULL otherwise), copies
the name, formats the path as `"%s/%s"` from the database path and the
name, and zero/NULL-initialises every remaining field. -/
def ObjectFile_create (database : Option Database) (name : Option String) :
    Option ObjectFile :=
  match database, name with
  | none, _ => none
  | _, none => none
  | some db, some nm =>
    some ⟨nm, db.path ++ "/" ++ nm, none, 0, none, 0, none, 0⟩

/-! ### Embedded code: src/sky_bench.c -/

/-- Embeds C `atoi`: skip leading white space, then an optional sign,
then a maximal run of decimal digits (value 0 when no digits). -/
def isSpaceC (c : Char) : Bool :=
  c = ' ' || c = '\t' || c = '\n' || c = '\x0b' || c = '\x0c' || c = '\r'

/-- Digit-accumulation loop of `atoi`. -/
def atoiDigits : List Char → Nat → Nat
  | [], acc => acc
  | c :: cs, acc => if c.isDigit then atoiDigits cs (acc * 10 + (c.toNat - 48)) else acc

/-- C `atoi`, as called in sky_bench.c:76. -/
def atoi (s : String) : Int :=
  match s.toList.dropWhile isSpaceC with
  | '-' :: rest => -Int.ofNat (atoiDigits rest 0)
  | '+' :: rest => Int.ofNat (atoiDigits rest 0)
  | rest => Int.ofNat (atoiDigits rest 0)

/-- Embeds the `Options` struct of sky_bench.c (path, object_type,
iterations); a missing path/object type is NULL. -/
structure Options where
  path : String
  object_type : String
  iterations : Int
deriving DecidableEq

/-- One option recognised by the `getopt_long` loop of `parseopts`
(sky_bench.c:58-80): `-o`/`--object-type` with its argument, or
`-i`/`--iterations` with its argument. -/
inductive CliOpt where
  | objectTypeOpt (arg : String)
  | iterationsOpt (arg : String)
deriving DecidableEq

/-- One iteration of the `switch` in the `getopt_long` loop: `'o'`
stores the argument as `object_type`, `'i'` stores `atoi(optarg)` as
`iterations`.  The state is `(object_type, iterations)`, starting from
the `calloc`-zeroed `(NULL, 0)`. -/
def getopt_step (st : Option String × Int) (opt : CliOpt) : Option String × Int :=
  match opt with
  | .objectTypeOpt s => (some s, st.2)
  | .iterationsOpt s => (st.1, atoi s)

/-- The whole `getopt_long` loop of `parseopts`. -/
def getopt_fold (opts : List CliOpt) : Option String × Int :=
  opts.foldl getopt_step (none, 0)

/-- Embeds `parseopts` (sky_bench.c:45-107) after the `getopt_long`
loop: `positional` is `argv` after `optind` (the non-option
arguments).  If no positional argument remains, print an error and
`exit(1)`; take the first one as the database path; if `-o` was never
given, print an error and `exit(1)`; if `iterations <= 0` (in
particular when `-i` was omitted and it is still the `calloc` zero),
default it to 1.  `Except.error n` stands for `exit(n)`. -/
def parseopts (opts : List CliOpt) (positional : List String) : Except Nat Options :=
  let st := getopt_fold opts
  match positional with
  | [] => Except.error 1
  | path :: _ =>
    match st.1 with
    | none => Except.error 1
    | some ot => Except.ok ⟨path, ot, if st.2 ≤ 0 then 1 else st.2⟩

/-! ### Modelled from the spec: the dictionary writer -/

/-- A dictionary entry `{id, name}` (spec §3); names are byte strings. -/
structure DictEntry where
  id : Nat
  name : List Nat
deriving DecidableEq

/-- Modelled from the spec: the id allocated by `find_or_create` for a
new name — `max_existing_id + 1`, or 0 if the dictionary is empty
(spec §4.2).  No id-allocation code exists in the source. -/
def next_id (d : List DictEntry) : Nat :=
  match d with
  | [] => 0
  | _ => (d.map DictEntry.id).foldl max 0 + 1

/-- Modelled from the spec: `find_or_create(name)` returns the existing
id for `name` if present, otherwise appends a fresh entry (spec §4.2).
No such function exists in the source. -/
def find_or_create (d : List DictEntry) (nm : List Nat) : Nat × List DictEntry :=
  match d.find? (fun en => decide (en.name = nm)) with
  | some en => (en.id, d)
  | none => (next_id d, d ++ [⟨next_id d, nm⟩])

/-- Little-endian encoding of `n` on `k` bytes. -/
def leBytes : Nat → Nat → List Nat
  | 0, _ => []
  | k + 1, n => n % 256 :: leBytes k (n / 256)

/-- Modelled from the spec: `persist()` writes a `u32 count` then
`count` records of `{u32 id, u16 name_length, name_length name bytes}`
(spec §4.2, §6).  No persist code exists in the source. -/
def persist_dictionary (d : List DictEntry) : List Nat :=
  leBytes 4 d.length ++
    (d.map (fun en => leBytes 4 en.id ++ leBytes 2 en.name.length ++ en.name)).flatten

/-! ### Claims C1, C2, C6, C9, C8 -/

/-- Claim C1 (code_bug): the claim says `load_actions` fails with
CorruptFormat when a record's stored `name_length` exceeds the bytes
remaining before EOF and reads exactly `name_length` bytes per name on
well-formed files.  The code does neither: the existence test is
inverted (`file_exists` returns 0 precisely when the file exists, and
the branch guarded by `if(file_exists(path))` is therefore taken only
when the file is *missing*), so an existing actions file — well formed
or truncated — is never read and `load_actions` returns success with
`action_count = 0`; and the record loop itself, were it reached, reads
`sizeof(uint16_t) = 2` bytes into the buffer *pointer* and compares
fread's item count with `name_length`, rejecting the well-formed file
`count=1, id=7, name_length=2, name="hi"` as "Corrupt actions file". -/
theorem c1_load_actions_corrupt_format_bug :
    read_actions_file [1, 0, 0, 0, 7, 0, 0, 0, 2, 0, 104, 105] = Except.error () ∧
    load_actions (some [1, 0, 0, 0, 7, 0, 0, 0, 2, 0, 104, 105]) = Except.ok 0 ∧
    load_actions (some [1, 0, 0, 0, 0, 0, 0, 0, 5, 0, 104]) = Except.ok 0 := by
  refine ⟨rfl, rfl, rfl⟩

/-- Claim C2 (code_bug): the claim says a missing actions file makes
`load_actions` succeed with an empty dictionary, and an existing file
has its records read.  Because `file_exists` returns the `stat` return
code (0 on existence) and `load_actions` treats nonzero as "exists",
the code does the opposite: with the file absent it enters the read
branch, `fopen` fails and it returns -1; with the file present
(here a well-formed one-record file) it skips reading entirely and
returns success with `action_count = 0`. -/
theorem c2_load_actions_missing_file_bug :
    load_actions none = Except.error () ∧
    file_exists none = -1 ∧
    load_actions (some [1, 0, 0, 0, 7, 0, 0, 0, 1, 0, 104]) = Except.ok 0 := by
  refine ⟨rfl, rfl, rfl⟩

/-- Claim C6 (code_bug): the claim says persisting a dictionary built
by `find_or_create` and loading it back reproduces the same id→name
mapping.  Against the source's `load_actions` the round trip loses
every entry: persisting the one-entry dictionary `[{id 0, name "a"}]`
produces an existing, well-formed actions file, and `load_actions` on
an existing file returns success with `action_count = 0` (the file is
never read because the existence test is inverted). -/
theorem c6_dictionary_round_trip_bug :
    (find_or_create [] [97]).2 = [⟨0, [97]⟩] ∧
    persist_dictionary [⟨0, [97]⟩] = [1, 0, 0, 0, 0, 0, 0, 0, 1, 0, 97] ∧
    load_actions (some (persist_dictionary [⟨0, [97]⟩])) = Except.ok 0 ∧
    [⟨0, [97]⟩] ≠ ([] : List DictEntry) := by
  refine ⟨by decide, by decide, rfl, by decide⟩

/-- Claim C9: `ObjectFile_create` returns NULL on a NULL database or a
NULL name; on success the handle's path is the database path joined to
the name by a slash, and the info/action/property lists are NULL with
all three counts 0. -/
theorem c9_ObjectFile_create_init (db : Option Database) (nm : Option String)
    (d : Database) (n : String) :
    ObjectFile_create none nm = none ∧
    ObjectFile_create db none = none ∧
    ObjectFile_create (some d) (some n) =
      some ⟨n, d.path ++ "/" ++ n, none, 0, none, 0, none, 0⟩ := by
  refine ⟨?_, ?_, rfl⟩
  · cases nm <;> rfl
  · cases db <;> rfl

/-- The `iterations` component of the getopt state is untouched when no
`-i` option occurs. -/
lemma getopt_fold_no_iter :
    ∀ (opts : List CliOpt) (st : Option String × Int),
      (∀ s, CliOpt.iterationsOpt s ∉ opts) →
      (List.foldl getopt_step st opts).2 = st.2 := by
  intro opts
  induction opts with
  | nil => intro st _; rfl
  | cons a l ih =>
    intro st h
    have hl : ∀ s, CliOpt.iterationsOpt s ∉ l := by
      intro s hs
      exact h s (List.mem_cons_of_mem _ hs)
    cases a with
    | objectTypeOpt s =>
      simpa [getopt_step] using ih _ hl
    | iterationsOpt s =>
      exact absurd (List.mem_cons_self _ _) (h s)

/-- Claim C8: the benchmark CLI requires a database path (first
positional argument) and an object type (`-o`), exiting with the
nonzero status 1 when either is missing; when both are present parsing
succeeds, and the iteration count is `atoi` of the last `-i` argument
defaulted to 1 whenever it is omitted or not positive — in particular
every successful parse has `iterations ≥ 1`, and omitting `-i`
entirely yields exactly 1. -/
theorem c8_parseopts_cli (opts : List CliOpt) (positional : List String) :
    (positional = [] → parseopts opts positional = Except.error 1) ∧
    ((getopt_fold opts).1 = none → parseopts opts positional = Except.error 1) ∧
    (∀ p rest ot, positional = p :: rest → (getopt_fold opts).1 = some ot →
      parseopts opts positional =
        Except.ok ⟨p, ot,
          if (getopt_fold opts).2 ≤ 0 then 1 else (getopt_fold opts).2⟩) ∧
    (∀ o, parseopts opts positional = Except.ok o → 1 ≤ o.iterations) ∧
    ((∀ s, CliOpt.iterationsOpt s ∉ opts) →
      ∀ o, parseopts opts positional = Except.ok o → o.iterations = 1) := by
  have hshape : ∀ p rest ot, positional = p :: rest →
      (getopt_fold opts).1 = some ot →
      parseopts opts positional =
        Except.ok ⟨p, ot,
          if (getopt_fold opts).2 ≤ 0 then 1 else (getopt_fold opts).2⟩ := by
    intro p rest ot hp hot
    subst hp
    simp [parseopts, hot]
  refine ⟨?_, ?_, hshape, ?_, ?_⟩
  · intro h
    subst h
    rfl
  · intro h
    cases positional with
    | nil => rfl
    | cons p rest => simp [parseopts, h]
  · intro o ho
    cases positional with
    | nil => exact absurd ho (by simp [parseopts])
    | cons p rest =>
      cases hot : (getopt_fold opts).1 with
      | none => simp [parseopts, hot] at ho
      | some ot =>
        rw [hshape p rest ot rfl hot] at ho
        injection ho with h
        rw [← h]
        simp only []
        split <;> omega
  · intro hno o ho
    have hz : (getopt_fold opts).2 = 0 := getopt_fold_no_iter opts ⟨none, 0⟩ hno
    cases positional with
    | nil => exact absurd ho (by simp [parseopts])
    | cons p rest =>
      cases hot : (getopt_fold opts).1 with
      | none => simp [parseopts, hot] at ho
      | some ot =>
        rw [hshape p rest ot rfl hot] at ho
        injection ho with h
        rw [← h, hz]
        rfl

/-- Witness for claim C8: concrete runs discharging each hypothesis of
`c8_parseopts_cli` — a missing path exits 1, a missing object type
exits 1, and `sky-bench -o users db` parses with the default iteration
count 1. -/
theorem c8_parseopts_cli_witness :
    parseopts [CliOpt.objectTypeOpt "users"] [] = Except.error 1 ∧
    parseopts [] ["db"] = Except.error 1 ∧
    parseopts [CliOpt.objectTypeOpt "users"] ["db"] =
      Except.ok ⟨"db", "users", 1⟩ := by
  refine ⟨?_, ?_, ?_⟩
  · exact (c8_parseopts_cli [CliOpt.objectTypeOpt "users"] []).1 rfl
  · exact (c8_parseopts_cli [] ["db"]).2.1 rfl
  · have h := (c8_parseopts_cli [CliOpt.objectTypeOpt "users"] ["db"]).2.2.1
      "db" [] "users" rfl rfl
    simpa using h

/-! ### Modelled from the spec: the lock manager -/

/-- Outcome of a lock-manager operation (spec §4.3, §7): success,
`LockConflict` (another live process holds the lock), or
`LockViolation` (releasing a lock not held or rewritten — a fatal
logic error). -/
inductive LockResult where
  | ok
  | lockConflict
  | lockViolation
deriving DecidableEq

/-- Modelled from the spec: `acquire()` of the lock manager (spec
§4.3); `lock()` in the source (object_file.c:152) is a TODO stub.  The
lock file is `some pid` when present, `live` says which process
identifiers are alive, `self` is this process.  If no lock file
exists, create one holding `self`.  If one exists and its process is
alive, fail with LockConflict without blocking.  If its process is
dead, remove the stale file and retry once — the retry finds no lock
file and creates one holding `self`. -/
def acquire (live : Nat → Bool) (self : Nat) (lockfile : Option Nat) :
    LockResult × Option Nat :=
  match lockfile with
  | none => (LockResult.ok, some self)
  | some pid =>
    if live pid then (LockResult.lockConflict, some pid)
    else (LockResult.ok, some self)

/-- Modelled from the spec: `release()` of the lock manager (spec
§4.3); `unlock()` in the source (object_file.c:166) is a TODO stub.
Verify the lock file still names `self` before deleting it; releasing
a lock that is absent or that names another process is the fatal
LockViolation and leaves the file untouched. -/
def release (self : Nat) (lockfile : Option Nat) : LockResult × Option Nat :=
  match lockfile with
  | none => (LockResult.lockViolation, none)
  | some pid =>
    if pid = self then (LockResult.ok, none)
    else (LockResult.lockViolation, some pid)

/-- Claim C4: while a live process (`holder`) holds the lock,
acquisition by a distinct live process (`self`) fails with
LockConflict (fail-fast, the lock file unchanged); a lock file naming
a process that is no longer alive (`deadp`) is treated as stale --
acquisition removes it and succeeds, the file now naming the caller;
release succeeds exactly when the lock file still names the calling
process (then deleting it), and releasing an absent lock or one naming
another process is the fatal LockViolation, never silently ignored. -/
theorem c4_lock_protocol (live : Nat → Bool) (self holder deadp : Nat)
    (hlive : live holder = true) (_hself : live self = true)
    (hdead : live deadp = false) (hne : holder ≠ self) :
    acquire live self (some holder) = (LockResult.lockConflict, some holder) ∧
    acquire live self (some deadp) = (LockResult.ok, some self) ∧
    acquire live self none = (LockResult.ok, some self) ∧
    release self (some self) = (LockResult.ok, none) ∧
    (∀ pid, release self (some pid) = (LockResult.ok, none) → pid = self) ∧
    release self (some holder) = (LockResult.lockViolation, some holder) ∧
    release self none = (LockResult.lockViolation, none) := by
  refine ⟨?_, ?_, rfl, ?_, ?_, ?_, rfl⟩
  · simp [acquire, hlive]
  · simp [acquire, hdead]
  · simp [release]
  · intro pid h
    by_contra hne'
    simp [release, hne'] at h
  · simp [release, hne]

/-- Witness for claim C4: the lock protocol at concrete process
identifiers -- processes 1 and 2 are alive, process 1 holds the lock,
the live process 2 is the caller, and process 3 is dead. -/
theorem c4_lock_protocol_witness :
    acquire (fun p => p = 1 || p = 2) 2 (some 1) =
      (LockResult.lockConflict, some 1) ∧
    acquire (fun p => p = 1 || p = 2) 2 (some 3) = (LockResult.ok, some 2) ∧
    acquire (fun p => p = 1 || p = 2) 2 none = (LockResult.ok, some 2) ∧
    release 2 (some 2) = (LockResult.ok, none) ∧
    (∀ pid, release 2 (some pid) = (LockResult.ok, none) → pid = 2) ∧
    release 2 (some 1) = (LockResult.lockViolation, some 1) ∧
    release 2 none = (LockResult.lockViolation, none) :=
  c4_lock_protocol (fun p => p = 1 || p = 2) 2 1 3
    (by decide) (by decide) (by decide) (by decide)

/-! ### Embedded code: ObjectFile_open / ObjectFile_close -/

/-- The four steps `ObjectFile_open` (object_file.c:233-247) runs in
order, each guarded by `check(step(object_file) == 0, ...)`. -/
inductive OpenStep where
  | lockStep
  | headerStep
  | actionsStep
  | propertiesStep
deriving DecidableEq

/-- Embeds the `check` cascade of `ObjectFile_open`
(object_file.c:233-247): run `lock`, then `load_header`, then
`load_actions`, then `load_properties`; the first step returning
nonzero jumps to `error` and the function returns -1, otherwise it
returns 0.  `rc` gives each step's return code; the result pairs the
function's return code with the list of steps actually executed, in
execution order. -/
def ObjectFile_open_trace (rc : OpenStep → Int) : Int × List OpenStep :=
  if rc OpenStep.lockStep ≠ 0 then (-1, [OpenStep.lockStep])
  else if rc OpenStep.headerStep ≠ 0 then
    (-1, [OpenStep.lockStep, OpenStep.headerStep])
  else if rc OpenStep.actionsStep ≠ 0 then
    (-1, [OpenStep.lockStep, OpenStep.headerStep, OpenStep.actionsStep])
  else if rc OpenStep.propertiesStep ≠ 0 then
    (-1, [OpenStep.lockStep, OpenStep.headerStep, OpenStep.actionsStep,
      OpenStep.propertiesStep])
  else
    (0, [OpenStep.lockStep, OpenStep.headerStep, OpenStep.actionsStep,
      OpenStep.propertiesStep])

/-- `ObjectFile_open` with the source's step implementations: `lock`,
`load_header` and `load_properties` are stubs returning 0, and
`load_actions` runs on the actions file's content. -/
def ObjectFile_open (actionsFile : Option (List Nat)) : Int × List OpenStep :=
  ObjectFile_open_trace (fun s =>
    match s with
    | OpenStep.lockStep => 0
    | OpenStep.headerStep => load_header
    | OpenStep.actionsStep =>
      match load_actions actionsFile with
      | Except.ok _ => 0
      | Except.error _ => -1
    | OpenStep.propertiesStep => load_properties)

/-- Embeds `ObjectFile_close` (object_file.c:252-259):
`check(unlock(object_file) == 0, ...)` then return 0, returning -1 when
`unlock` fails.  `unlock` in the source is a TODO stub that touches no
field of the handle; its intended effect on the lock file is the
spec-modelled `release` (spec §4.3), threaded here as explicit state.
The function never writes any `ObjectFile` field. -/
def ObjectFile_close (o : ObjectFile) (self : Nat) (lockfile : Option Nat) :
    Int × ObjectFile × Option Nat :=
  let r := release self lockfile
  match r.1 with
  | LockResult.ok => (0, o, r.2)
  | _ => (-1, o, r.2)

/-- Claim C7: `ObjectFile_open` executes the lock acquisition first and
then the three loads in order (its executed-step trace is always a
nonempty prefix of [lock, header, actions, properties] starting with
the lock step), returns 0 exactly when every executed step returned 0,
and -1 (nonzero) as soon as any step fails; `ObjectFile_close` releases
the lock: closing while holding the lock returns 0 and removes the
lock file. -/
theorem c7_open_close_flow (rc : OpenStep → Int) (o : ObjectFile) (self : Nat) :
    ((ObjectFile_open_trace rc).1 = 0 ↔
      rc OpenStep.lockStep = 0 ∧ rc OpenStep.headerStep = 0 ∧
      rc OpenStep.actionsStep = 0 ∧ rc OpenStep.propertiesStep = 0) ∧
    ((ObjectFile_open_trace rc).1 = 0 ∨ (ObjectFile_open_trace rc).1 = -1) ∧
    (ObjectFile_open_trace rc).2.head? = some OpenStep.lockStep ∧
    (ObjectFile_open_trace rc).2 <+: [OpenStep.lockStep, OpenStep.headerStep,
      OpenStep.actionsStep, OpenStep.propertiesStep] ∧
    (∀ f, (ObjectFile_open f).1 = 0 ↔ ∃ n, load_actions f = Except.ok n) ∧
    ObjectFile_close o self (some self) = (0, o, none) := by
  refine ⟨?_, ?_, ?_, ?_, ?_, ?_⟩
  · unfold ObjectFile_open_trace
    split <;> try (split <;> try (split <;> try split))
    all_goals simp_all
  · unfold ObjectFile_open_trace
    split <;> try (split <;> try (split <;> try split))
    all_goals simp
  · unfold ObjectFile_open_trace
    split <;> try (split <;> try (split <;> try split))
    all_goals simp
  · unfold ObjectFile_open_trace
    split <;> try (split <;> try (split <;> try split))
    all_goals decide
  · intro f
    cases f with
    | none =>
      constructor
      · intro h
        exact absurd h (by decide)
      · rintro ⟨n, hn⟩
        exact absurd hn (by simp [load_actions, file_exists])
    | some bs =>
      constructor
      · intro _
        exact ⟨0, rfl⟩
      · intro _
        rfl
  · simp [ObjectFile_close, release]

/-- Witness for claim C7: the all-steps-succeed run returns 0, a run
whose action-load step fails returns -1, and a concrete close while
holding the lock releases it. -/
theorem c7_open_close_flow_witness :
    (ObjectFile_open_trace (fun _ => 0)).1 = 0 ∧
    ObjectFile_close ⟨"users", "db/users", none, 0, none, 0, none, 0⟩ 42 (some 42) =
      (0, ⟨"users", "db/users", none, 0, none, 0, none, 0⟩, none) :=
  ⟨(c7_open_close_flow (fun _ => 0)
      ⟨"users", "db/users", none, 0, none, 0, none, 0⟩ 42).1.mpr
      ⟨rfl, rfl, rfl, rfl⟩,
    (c7_open_close_flow (fun _ => 0)
      ⟨"users", "db/users", none, 0, none, 0, none, 0⟩ 42).2.2.2.2.2⟩

/-- Claim C10: `ObjectFile_close` only releases the lock — for every
handle, every calling process and every lock-file state, the
`ObjectFile` component of the result is the input handle unchanged in
every field (name, path, infos, block_count, actions, action_count,
properties, property_count), and the call succeeds exactly when the
lock file names the calling process. -/
theorem c10_close_frame (o : ObjectFile) (self : Nat) (lockfile : Option Nat) :
    (ObjectFile_close o self lockfile).2.1 = o ∧
    ((ObjectFile_close o self lockfile).1 = 0 ↔ lockfile = some self) := by
  constructor
  · cases lockfile with
    | none => rfl
    | some pid =>
      by_cases h : pid = self
      · subst h
        simp [ObjectFile_close, release]
      · simp [ObjectFile_close, release, h]
  · cases lockfile with
    | none => simp [ObjectFile_close, release]
    | some pid =>
      by_cases h : pid = self
      · subst h
        simp [ObjectFile_close, release]
      · simp [ObjectFile_close, release, h]

/-- Witness for claim C10: a concrete close leaves every field of the
handle unchanged and succeeds since the lock file names the caller. -/
theorem c10_close_frame_witness :
    (ObjectFile_close ⟨"users", "db/users", none, 3, none, 4, none, 5⟩ 7
        (some 7)).2.1 = ⟨"users", "db/users", none, 3, none, 4, none, 5⟩ ∧
    ((ObjectFile_close ⟨"users", "db/users", none, 3, none, 4, none, 5⟩ 7
        (some 7)).1 = 0 ↔ (some 7 : Option Nat) = some 7) :=
  c10_close_frame ⟨"users", "db/users", none, 3, none, 4, none, 5⟩ 7 (some 7)


/-! ### Modelled from the spec: Event, Path, ordered insertion, Cursor

The storage engine proper — Events, Paths, Blocks, the Header Index,
the insertion/split algorithm and the Cursor/PathIterator readers — is
present in the source only as data-structure declarations, TODO
comments and the benchmark's read loop; everything in the `Sky`
namespace below is modelled from the spec (§3-§4).  The namespace also
keeps the spec's `Path` name clear of Mathlib's. -/

namespace Sky

/-- An Event (spec §3): target object id, timestamp, action id.
(Property values are opaque to every claim and omitted.) -/
structure Event where
  object_id : Nat
  timestamp : Int
  action_id : Nat
deriving DecidableEq

/-- A Path (spec §3): one object id with its ordered event sequence. -/
structure Path where
  object_id : Nat
  events : List Event
deriving DecidableEq

/-- Modelled from the spec: step 3 of the insertion algorithm
(spec §4.4) — `ObjectFile_add_event` in the source (object_file.c:266)
is a TODO stub.  Ordered insert preserving the timestamp-ascending,
stable-tie-break invariant: the new event is placed after every event
whose timestamp is ≤ its own and before the first strictly later
one. -/
def insertOrdered : List Event → Event → List Event
  | [], e => [e]
  | x :: xs, e =>
    if e.timestamp < x.timestamp then e :: x :: xs
    else x :: insertOrdered xs e

/-- Ordered insert of one event into a Path. -/
def Path.insertEvent (p : Path) (e : Event) : Path :=
  ⟨p.object_id, insertOrdered p.events e⟩

/-- A sequence of insertions, in arrival order. -/
def Path.addEvents (p : Path) (es : List Event) : Path :=
  es.foldl Path.insertEvent p

/-- The Path invariant (spec §3): events sorted ascending by
timestamp. -/
def tsOrdered (l : List Event) : Prop :=
  List.Chain' (fun a b : Event => a.timestamp ≤ b.timestamp) l

/-- Modelled from the spec: a Cursor (spec §4.5) — current index into
one Path's event sequence plus an `eof` flag, true once the index
passes the last event. -/
structure Cursor where
  events : List Event
  index : Nat
  eof : Bool
deriving DecidableEq

/-- A fresh Cursor over a Path, positioned at the first event. -/
def Cursor.create (p : Path) : Cursor :=
  ⟨p.events, 0, decide (p.events.length ≤ 0)⟩

/-- Modelled from the spec: `next_event()` advances the index by one
and updates `eof`; calling it once `eof` is already true is the
NotFound-style error (spec §4.5). -/
def Cursor.next_event (c : Cursor) : Except Unit Cursor :=
  if c.eof then Except.error ()
  else Except.ok ⟨c.events, c.index + 1, decide (c.events.length ≤ c.index + 1)⟩

/-- The events a Cursor produces: the current event, then those of the
advanced cursor, stopping at `eof` (the benchmark's inner loop,
sky_bench.c:176-183).  Fuel-driven; `Cursor.drain` supplies enough
fuel. -/
def Cursor.drainFuel : Nat → Cursor → List Event
  | 0, _ => []
  | fuel + 1, c =>
    if c.eof then []
    else
      match c.events[c.index]?, c.next_event with
      | some e, Except.ok c' => e :: Cursor.drainFuel fuel c'
      | _, _ => []

/-- All events a Cursor produces. -/
def Cursor.drain (c : Cursor) : List Event :=
  Cursor.drainFuel c.events.length c

/-- Draining a cursor whose `eof` flag is faithful to its index yields
the suffix of its event list from the index on. -/
lemma Cursor.drainFuel_eq (fuel : Nat) :
    ∀ c : Cursor, c.eof = decide (c.events.length ≤ c.index) →
      c.events.length - c.index ≤ fuel →
      Cursor.drainFuel fuel c = c.events.drop c.index := by
  induction fuel with
  | zero =>
    intro c hc hf
    rw [Cursor.drainFuel]
    exact (List.drop_eq_nil_of_le (by omega)).symm
  | succ n ih =>
    intro c hc hf
    rw [Cursor.drainFuel]
    by_cases he : c.eof = true
    · rw [if_pos he]
      have hle : c.events.length ≤ c.index := by
        rw [he] at hc
        exact of_decide_eq_true hc.symm
      exact (List.drop_eq_nil_of_le hle).symm
    · rw [if_neg he]
      have hnle : ¬ c.events.length ≤ c.index := by
        intro hle
        exact he (by rw [hc]; exact decide_eq_true hle)
      have hlt : c.index < c.events.length := by omega
      have hnext : c.next_event = Except.ok ⟨c.events, c.index + 1,
          decide (c.events.length ≤ c.index + 1)⟩ := by
        unfold Cursor.next_event
        rw [if_neg he]
      rw [List.getElem?_eq_getElem hlt, hnext]
      show c.events[c.index] :: Cursor.drainFuel n
          ⟨c.events, c.index + 1, decide (c.events.length ≤ c.index + 1)⟩ =
        c.events.drop c.index
      rw [ih ⟨c.events, c.index + 1, decide (c.events.length ≤ c.index + 1)⟩ rfl
        (show c.events.length - (c.index + 1) ≤ n by omega)]
      exact (List.drop_eq_getElem_cons hlt).symm

/-- Draining a fresh Cursor over a Path yields exactly the Path's
events. -/
lemma Cursor.drain_create (p : Path) :
    Cursor.drain (Cursor.create p) = p.events := by
  have h := Cursor.drainFuel_eq p.events.length (Cursor.create p) rfl
    (show p.events.length - 0 ≤ p.events.length by omega)
  simpa [Cursor.drain, Cursor.create] using h

/-- The head of `insertOrdered l e` is `e` or the head of `l`. -/
lemma insertOrdered_head (l : List Event) (e : Event) :
    (insertOrdered l e).head? = some e ∨ (insertOrdered l e).head? = l.head? := by
  cases l with
  | nil => exact Or.inl rfl
  | cons x xs =>
    rw [insertOrdered]
    by_cases h : e.timestamp < x.timestamp
    · rw [if_pos h]; exact Or.inl rfl
    · rw [if_neg h]; exact Or.inr rfl

/-- Ordered insertion preserves the timestamp-sorted invariant. -/
lemma tsOrdered_insertOrdered {l : List Event} (e : Event) (h : tsOrdered l) :
    tsOrdered (insertOrdered l e) := by
  induction l with
  | nil => exact List.chain'_singleton e
  | cons x xs ih =>
    rw [insertOrdered]
    by_cases hx : e.timestamp < x.timestamp
    · rw [if_pos hx]
      exact List.chain'_cons.mpr ⟨le_of_lt hx, h⟩
    · rw [if_neg hx]
      have hx' : x.timestamp ≤ e.timestamp := le_of_not_lt hx
      have htail : tsOrdered xs := (List.chain'_cons'.mp h).2
      refine List.chain'_cons'.mpr ⟨?_, ih htail⟩
      intro y hy
      rcases insertOrdered_head xs e with hh | hh
      · rw [hh] at hy
        cases hy
        exact hx'
      · rw [hh] at hy
        exact (List.chain'_cons'.mp h).1 y hy

/-- Any arrival order of insertions leaves the Path's events
timestamp-sorted. -/
lemma tsOrdered_addEvents (es : List Event) :
    ∀ p : Path, tsOrdered p.events → tsOrdered (p.addEvents es).events := by
  induction es with
  | nil => intro p h; exact h
  | cons e es ih =>
    intro p h
    exact ih (p.insertEvent e) (tsOrdered_insertOrdered e h)

/-- In a timestamp-sorted list every later event's timestamp is at
least the head's. -/
lemma tsOrdered_head_le :
    ∀ (xs : List Event) (x : Event), tsOrdered (x :: xs) →
      ∀ y ∈ xs, x.timestamp ≤ y.timestamp := by
  intro xs
  induction xs with
  | nil =>
    intro x _ y hy
    exact absurd hy (List.not_mem_nil y)
  | cons y ys ih =>
    intro x h z hz
    rcases List.chain'_cons.mp h with ⟨h1, h2⟩
    rcases List.mem_cons.mp hz with hz | hz
    · subst hz
      exact h1
    · exact le_trans h1 (ih y h2 z hz)

/-- Stability of one ordered insert: within any fixed timestamp `t`,
inserting into a sorted list appends the new event after the events of
that timestamp already present and moves no other one. -/
lemma filter_insertOrdered (t : Int) :
    ∀ (l : List Event) (e : Event), tsOrdered l →
      (insertOrdered l e).filter (fun x => decide (x.timestamp = t)) =
        l.filter (fun x => decide (x.timestamp = t)) ++
          (if e.timestamp = t then [e] else []) := by
  intro l
  induction l with
  | nil =>
    intro e _
    rw [insertOrdered]
    by_cases he : e.timestamp = t
    · simp [List.filter_cons, he]
    · simp [List.filter_cons, he]
  | cons x xs ih =>
    intro e h
    rw [insertOrdered]
    by_cases hx : e.timestamp < x.timestamp
    · rw [if_pos hx]
      by_cases he : e.timestamp = t
      · have hnil : (x :: xs).filter (fun y => decide (y.timestamp = t)) = [] := by
          rw [List.filter_eq_nil_iff]
          intro y hy
          rcases List.mem_cons.mp hy with hy | hy
          · subst hy
            simp only [decide_eq_true_eq]
            omega
          · have := tsOrdered_head_le xs x h y hy
            simp only [decide_eq_true_eq]
            omega
        rw [hnil]
        simp [List.filter_cons, he, hnil]
      · simp [List.filter_cons, he]
    · rw [if_neg hx]
      have hxs : tsOrdered xs := (List.chain'_cons'.mp h).2
      by_cases hpx : x.timestamp = t
      · simp [List.filter_cons, hpx, ih e hxs]
      · simp [List.filter_cons, hpx, ih e hxs]

/-- Stability of a whole insertion run: within any fixed timestamp, a
sorted accumulator gains the run's events of that timestamp at its
end, in arrival order. -/
lemma filter_addEvents (t : Int) :
    ∀ (es : List Event) (p : Path), tsOrdered p.events →
      ((p.addEvents es).events).filter (fun x => decide (x.timestamp = t)) =
        p.events.filter (fun x => decide (x.timestamp = t)) ++
          es.filter (fun x => decide (x.timestamp = t)) := by
  intro es
  induction es with
  | nil =>
    intro p h
    simp [Path.addEvents]
  | cons e es ih =>
    intro p h
    have h1 : tsOrdered (p.insertEvent e).events := tsOrdered_insertOrdered e h
    show ((Path.addEvents (p.insertEvent e) es).events).filter
        (fun x => decide (x.timestamp = t)) = _
    rw [ih (p.insertEvent e) h1]
    show (insertOrdered p.events e).filter (fun x => decide (x.timestamp = t)) ++ _ = _
    rw [filter_insertOrdered t p.events e h]
    by_cases he : e.timestamp = t
    · simp [List.filter_cons, he]
    · simp [List.filter_cons, he]

/-- Claim C3: for every object id and every sequence of events inserted
via the (spec-modelled) `ObjectFile_add_event` path insertion, possibly
out of chronological order, the Path's events are timestamp-ascending
with ties broken by insertion order — for every timestamp `t`, the
events carrying `t` appear exactly as they arrived; in particular
inserting timestamps [5, 1, 3] yields a Cursor producing them in order
[1, 3, 5], and two tied-timestamp events are produced in their
insertion order. -/
theorem c3_chronological_insert (oid : Nat) (es : List Event) (t : Int) :
    tsOrdered ((Path.mk oid []).addEvents es).events ∧
    ((Path.mk oid []).addEvents es).events.filter (fun x => decide (x.timestamp = t)) =
      es.filter (fun x => decide (x.timestamp = t)) ∧
    Cursor.drain (Cursor.create ((Path.mk 1 []).addEvents
        [⟨1, 5, 0⟩, ⟨1, 1, 0⟩, ⟨1, 3, 0⟩])) =
      [⟨1, 1, 0⟩, ⟨1, 3, 0⟩, ⟨1, 5, 0⟩] ∧
    Cursor.drain (Cursor.create ((Path.mk 1 []).addEvents
        [⟨1, 7, 10⟩, ⟨1, 7, 20⟩])) = [⟨1, 7, 10⟩, ⟨1, 7, 20⟩] := by
  refine ⟨tsOrdered_addEvents es ⟨oid, []⟩ List.chain'_nil, ?_, by decide, by decide⟩
  have h := filter_addEvents t es (Path.mk oid []) List.chain'_nil
  simpa using h

/-! ### Modelled from the spec: Blocks, the Header Index and event insertion -/

/-- A Block (spec §3): an object-id range `[start_id, end_id)` and the
Paths whose object ids fall in that range, kept sorted by object id. -/
structure Block where
  start_id : Nat
  end_id : Nat
  paths : List Path
deriving DecidableEq

/-- The serialized-size measure of a Block: its total event count.
(The spec fixes no block byte format; any monotone measure serves the
size-ceiling check of §4.4 step 4.) -/
def Block.size (b : Block) : Nat := (b.paths.map (fun p => p.events.length)).sum

/-- Total event count across a block list. -/
def blocksSize (bs : List Block) : Nat := (bs.map Block.size).sum

/-- Modelled from the spec: steps 2-3 of insertion (spec §4.4) — find
the Path for the object id in the Block's sorted path list, creating
it at its sorted position if absent, and insert the event in timestamp
order. -/
def insertPath (oid : Nat) (e : Event) : List Path → List Path
  | [] => [⟨oid, [e]⟩]
  | p :: ps =>
    if p.object_id = oid then ⟨p.object_id, insertOrdered p.events e⟩ :: ps
    else if oid < p.object_id then ⟨oid, [e]⟩ :: p :: ps
    else p :: insertPath oid e ps

/-- Modelled from the spec: step 4 of insertion (spec §4.4) — binary
split of an over-size Block at its first path boundary: the first path
keeps the range `[start_id, second.object_id)`, the remaining paths
keep `[second.object_id, end_id)`, so the children's ranges subdivide
the parent's contiguously.  (The spec leaves split arity and the
partition policy to the implementer, §9.)  A block with fewer than two
paths cannot subdivide its range and is left whole. -/
def Block.split (b : Block) : List Block :=
  match b.paths with
  | p1 :: p2 :: rest =>
    [⟨b.start_id, p2.object_id, [p1]⟩, ⟨p2.object_id, b.end_id, p2 :: rest⟩]
  | _ => [b]

/-- Insert into a located Block, splitting when the result exceeds
`maxSize`. -/
def processBlock (maxSize oid : Nat) (e : Event) (b : Block) : List Block :=
  let b' : Block := ⟨b.start_id, b.end_id, insertPath oid e b.paths⟩
  if maxSize < b'.size then b'.split else [b']

/-- Walk the Header Index (blocks in range order) for the Block whose
range contains `oid`, replacing it in place by the insertion's result;
`none` when no range covers `oid` (spec §4.4 step 1). -/
def insertIntoBlocks (maxSize oid : Nat) (e : Event) : List Block → Option (List Block)
  | [] => none
  | b :: bs =>
    if decide (b.start_id ≤ oid) && decide (oid < b.end_id) then
      some (processBlock maxSize oid e b ++ bs)
    else
      match insertIntoBlocks maxSize oid e bs with
      | some bs' => some (b :: bs')
      | none => none

/-- Start of the fixed-width window containing `oid` (spec §4.4 step 1:
a brand-new block gets a default-sized window aligned to a fixed range
width `w`). -/
def windowStart (w oid : Nat) : Nat := oid / w * w

/-- Keep the Header Index sorted by start id when adding a block. -/
def insertBlockSorted : List Block → Block → List Block
  | [], nb => [nb]
  | b :: bs, nb =>
    if nb.start_id < b.start_id then nb :: b :: bs
    else b :: insertBlockSorted bs nb

/-- An ObjectFile's loaded block state: the blocks in Header Index
order. -/
structure OFile where
  blocks : List Block
deriving DecidableEq

/-- A fresh ObjectFile: no blocks, no events. -/
def OFile.create : OFile := ⟨[]⟩

/-- Modelled from the spec: `ObjectFile_add_event` (the source's
object_file.c:266 is a TODO stub; spec §4.4): locate the Block whose
range contains the event's object id — creating a fresh aligned-window
Block when none covers it — insert the Event into its Path in
timestamp order, and split the Block when it exceeds `maxSize`. -/
def addEvent (w maxSize : Nat) (st : OFile) (e : Event) : OFile :=
  match insertIntoBlocks maxSize e.object_id e st.blocks with
  | some bs' => ⟨bs'⟩
  | none =>
    ⟨insertBlockSorted st.blocks
      ⟨windowStart w e.object_id, windowStart w e.object_id + w, [⟨e.object_id, [e]⟩]⟩⟩

/-- A whole run of insertions, in arrival order. -/
def OFile.addEvents (w maxSize : Nat) (st : OFile) (es : List Event) : OFile :=
  es.foldl (addEvent w maxSize) st

/-- Modelled from the spec: the full PathIterator/Cursor scan (spec
§4.6; the benchmark's loop, sky_bench.c:167-192): Blocks in Header
Index order, Paths in order within each Block, one drained Cursor per
Path. -/
def OFile.fullScan (st : OFile) : List Event :=
  ((st.blocks.map
    (fun b => (b.paths.map (fun p => Cursor.drain (Cursor.create p))).flatten)).flatten)

/-- Path-list order: strictly ascending object ids. -/
def pathLt (p q : Path) : Prop := p.object_id < q.object_id

/-- Block order in the Header Index: sorted by start id and
non-overlapping. -/
def blockLt (a b : Block) : Prop :=
  a.start_id < b.start_id ∧ a.end_id ≤ b.start_id

/-- Well-formedness of one Block (spec §3): nonempty range, paths
strictly sorted by object id, all path ids inside the range. -/
def Block.WF (b : Block) : Prop :=
  b.start_id < b.end_id ∧
  List.Pairwise pathLt b.paths ∧
  ∀ p ∈ b.paths, b.start_id ≤ p.object_id ∧ p.object_id < b.end_id

/-- Some block's range contains `x`. -/
def covered (bs : List Block) (x : Nat) : Prop :=
  ∃ b ∈ bs, b.start_id ≤ x ∧ x < b.end_id

/-- Some block lives in the aligned window containing `x`. -/
def touched (w : Nat) (bs : List Block) (x : Nat) : Prop :=
  ∃ b ∈ bs, windowStart w b.start_id = windowStart w x

/-- The reachable-state invariant of an ObjectFile: every block well
formed and contained in its aligned window, the Header Index sorted
and disjoint, and every window either untouched or covered in full. -/
def OFile.WF (w : Nat) (st : OFile) : Prop :=
  (∀ b ∈ st.blocks, b.WF) ∧
  (∀ b ∈ st.blocks, b.end_id ≤ windowStart w b.start_id + w) ∧
  List.Pairwise blockLt st.blocks ∧
  ∀ x : Nat, touched w st.blocks x → covered st.blocks x

/-! Window arithmetic. -/

/-- The window start is at most its member. -/
lemma windowStart_le (w x : Nat) : windowStart w x ≤ x := Nat.div_mul_le_self x w

/-- A value lies before the end of its window. -/
lemma lt_windowStart_add (w x : Nat) (hw : 0 < w) : x < windowStart w x + w :=
  Nat.lt_div_mul_add hw

/-- Everything inside the window of `y` has the same window start. -/
lemma windowStart_eq_of_mem (w x y : Nat) (_hw : 0 < w)
    (h1 : windowStart w y ≤ x) (h2 : x < windowStart w y + w) :
    windowStart w x = windowStart w y := by
  unfold windowStart at *
  have : x / w = y / w := by
    refine Nat.div_eq_of_lt_le h1 ?_
    rw [Nat.succ_mul]
    exact h2
  rw [this]

/-- A window start is its own window start. -/
lemma windowStart_idem (w x : Nat) (hw : 0 < w) :
    windowStart w (windowStart w x) = windowStart w x := by
  unfold windowStart
  rw [Nat.mul_div_cancel _ hw]

/-- Two overlapping windows are the same window. -/
lemma windowStart_eq_of_overlap (w a b : Nat) (_hw : 0 < w)
    (h1 : windowStart w a < windowStart w b + w)
    (h2 : windowStart w b < windowStart w a + w) :
    windowStart w a = windowStart w b := by
  unfold windowStart at *
  have ha : a / w * w < (b / w + 1) * w := by
    rw [Nat.add_mul, one_mul]
    omega
  have hb : b / w * w < (a / w + 1) * w := by
    rw [Nat.add_mul, one_mul]
    omega
  have h3 : a / w < b / w + 1 := Nat.lt_of_mul_lt_mul_right ha
  have h4 : b / w < a / w + 1 := Nat.lt_of_mul_lt_mul_right hb
  have : a / w = b / w := by omega
  rw [this]

/-! Path-level lemmas. -/

/-- Ordered insertion adds exactly one event. -/
lemma insertOrdered_length (l : List Event) (e : Event) :
    (insertOrdered l e).length = l.length + 1 := by
  induction l with
  | nil => rfl
  | cons x xs ih =>
    rw [insertOrdered]
    by_cases h : e.timestamp < x.timestamp
    · rw [if_pos h]
      rfl
    · rw [if_neg h]
      simp [ih]

/-- Every object id present after a path insertion is the inserted id
or one already present. -/
lemma insertPath_ids (oid : Nat) (e : Event) :
    ∀ ps, ∀ q ∈ insertPath oid e ps,
      q.object_id = oid ∨ ∃ p ∈ ps, q.object_id = p.object_id := by
  intro ps
  induction ps with
  | nil =>
    intro q hq
    rw [insertPath, List.mem_singleton] at hq
    subst hq
    exact Or.inl rfl
  | cons p ps ih =>
    intro q hq
    rw [insertPath] at hq
    by_cases h1 : p.object_id = oid
    · rw [if_pos h1, List.mem_cons] at hq
      rcases hq with hq | hq
      · subst hq
        exact Or.inl h1
      · exact Or.inr ⟨q, List.mem_cons_of_mem _ hq, rfl⟩
    · rw [if_neg h1] at hq
      by_cases h2 : oid < p.object_id
      · rw [if_pos h2, List.mem_cons] at hq
        rcases hq with hq | hq
        · subst hq
          exact Or.inl rfl
        · exact Or.inr ⟨q, hq, rfl⟩
      · rw [if_neg h2, List.mem_cons] at hq
        rcases hq with hq | hq
        · subst hq
          exact Or.inr ⟨q, List.mem_cons_self _ _, rfl⟩
        · rcases ih q hq with hh | ⟨p', hp', hh⟩
          · exact Or.inl hh
          · exact Or.inr ⟨p', List.mem_cons_of_mem _ hp', hh⟩

/-- Path insertion preserves the strict object-id order. -/
lemma insertPath_pairwise (oid : Nat) (e : Event) :
    ∀ ps, List.Pairwise pathLt ps → List.Pairwise pathLt (insertPath oid e ps) := by
  intro ps
  induction ps with
  | nil =>
    intro _
    rw [insertPath]
    exact List.pairwise_singleton _ _
  | cons p ps ih =>
    intro h
    rcases List.pairwise_cons.mp h with ⟨hrel, hps⟩
    rw [insertPath]
    by_cases h1 : p.object_id = oid
    · rw [if_pos h1]
      exact List.pairwise_cons.mpr ⟨fun q hq => hrel q hq, hps⟩
    · rw [if_neg h1]
      by_cases h2 : oid < p.object_id
      · rw [if_pos h2]
        refine List.pairwise_cons.mpr ⟨?_, h⟩
        intro q hq
        rcases List.mem_cons.mp hq with hq | hq
        · subst hq
          exact h2
        · exact lt_trans h2 (hrel q hq)
      · rw [if_neg h2]
        have h3 : p.object_id < oid := by omega
        refine List.pairwise_cons.mpr ⟨?_, ih hps⟩
        intro q hq
        rcases insertPath_ids oid e ps q hq with hh | ⟨p', hp', hh⟩
        · rw [pathLt, hh]
          exact h3
        · rw [pathLt, hh]
          exact hrel p' hp'

/-- Path insertion keeps every object id within given bounds. -/
lemma insertPath_bounds (oid s t : Nat) (e : Event) (hs : s ≤ oid) (ht : oid < t)
    (ps : List Path) (hb : ∀ p ∈ ps, s ≤ p.object_id ∧ p.object_id < t) :
    ∀ q ∈ insertPath oid e ps, s ≤ q.object_id ∧ q.object_id < t := by
  intro q hq
  rcases insertPath_ids oid e ps q hq with hh | ⟨p', hp', hh⟩
  · rw [hh]
    exact ⟨hs, ht⟩
  · rw [hh]
    exact hb p' hp'

/-- Path insertion adds exactly one event to the total. -/
lemma insertPath_size (oid : Nat) (e : Event) :
    ∀ ps, ((insertPath oid e ps).map (fun p => p.events.length)).sum =
      (ps.map (fun p => p.events.length)).sum + 1 := by
  intro ps
  induction ps with
  | nil => rfl
  | cons p ps ih =>
    rw [insertPath]
    by_cases h1 : p.object_id = oid
    · rw [if_pos h1]
      simp [insertOrdered_length]
      omega
    · rw [if_neg h1]
      by_cases h2 : oid < p.object_id
      · rw [if_pos h2]
        simp
        omega
      · rw [if_neg h2]
        simp [ih]
        omega

/-! Block-level lemmas. -/

/-- Coverage over a cons cell. -/
lemma covered_cons (b : Block) (bs : List Block) (x : Nat) :
    covered (b :: bs) x ↔ (b.start_id ≤ x ∧ x < b.end_id) ∨ covered bs x := by
  constructor
  · rintro ⟨c, hc, hx⟩
    rcases List.mem_cons.mp hc with hc | hc
    · subst hc
      exact Or.inl hx
    · exact Or.inr ⟨c, hc, hx⟩
  · rintro (hx | ⟨c, hc, hx⟩)
    · exact ⟨b, List.mem_cons_self _ _, hx⟩
    · exact ⟨c, List.mem_cons_of_mem _ hc, hx⟩

/-- Coverage over an append. -/
lemma covered_append (l1 l2 : List Block) (x : Nat) :
    covered (l1 ++ l2) x ↔ covered l1 x ∨ covered l2 x := by
  constructor
  · rintro ⟨c, hc, hx⟩
    rcases List.mem_append.mp hc with hc | hc
    · exact Or.inl ⟨c, hc, hx⟩
    · exact Or.inr ⟨c, hc, hx⟩
  · rintro (⟨c, hc, hx⟩ | ⟨c, hc, hx⟩)
    · exact ⟨c, List.mem_append_left _ hc, hx⟩
    · exact ⟨c, List.mem_append_right _ hc, hx⟩

/-- Event totals add over an append. -/
lemma blocksSize_append (l1 l2 : List Block) :
    blocksSize (l1 ++ l2) = blocksSize l1 + blocksSize l2 := by
  simp [blocksSize]

/-- Event totals add over a cons. -/
lemma blocksSize_cons (b : Block) (bs : List Block) :
    blocksSize (b :: bs) = b.size + blocksSize bs := by
  simp [blocksSize]

/-- Inserting into a located block either leaves one block with the
same range, or two blocks whose ranges subdivide it at a path
boundary. -/
lemma processBlock_shape (m oid : Nat) (e : Event) (b : Block) :
    processBlock m oid e b = [⟨b.start_id, b.end_id, insertPath oid e b.paths⟩] ∨
    ∃ p1 p2 rest, insertPath oid e b.paths = p1 :: p2 :: rest ∧
      processBlock m oid e b =
        [⟨b.start_id, p2.object_id, [p1]⟩, ⟨p2.object_id, b.end_id, p2 :: rest⟩] := by
  rw [processBlock]
  by_cases h : m < Block.size ⟨b.start_id, b.end_id, insertPath oid e b.paths⟩
  · rw [if_pos h]
    cases hm : insertPath oid e b.paths with
    | nil =>
      left
      rw [Block.split]
    | cons p1 tail =>
      cases tail with
      | nil =>
        left
        rw [Block.split]
      | cons p2 rest =>
        right
        refine ⟨p1, p2, rest, rfl, ?_⟩
        rw [Block.split]
  · rw [if_neg h]
    left
    rfl

/-- The bundle of facts preserved by inserting into a well-formed
block whose range contains the id: every output block is well formed
with range inside the parent's, the outputs are ordered and disjoint,
they hold exactly one more event, and they cover exactly the parent's
range. -/
lemma processBlock_WF (m oid : Nat) (e : Event) (b : Block) (hb : b.WF)
    (hs : b.start_id ≤ oid) (ht : oid < b.end_id) :
    (∀ c ∈ processBlock m oid e b,
      c.WF ∧ b.start_id ≤ c.start_id ∧ c.end_id ≤ b.end_id) ∧
    List.Pairwise blockLt (processBlock m oid e b) ∧
    blocksSize (processBlock m oid e b) = b.size + 1 ∧
    (∀ x, covered (processBlock m oid e b) x ↔ (b.start_id ≤ x ∧ x < b.end_id)) := by
  rcases hb with ⟨hse, hpw, hbnd⟩
  have hpw' : List.Pairwise pathLt (insertPath oid e b.paths) :=
    insertPath_pairwise oid e b.paths hpw
  have hbnd' : ∀ q ∈ insertPath oid e b.paths,
      b.start_id ≤ q.object_id ∧ q.object_id < b.end_id :=
    insertPath_bounds oid b.start_id b.end_id e hs ht b.paths hbnd
  have hsz : ((insertPath oid e b.paths).map (fun p => p.events.length)).sum =
      (b.paths.map (fun p => p.events.length)).sum + 1 :=
    insertPath_size oid e b.paths
  rcases processBlock_shape m oid e b with heq | ⟨p1, p2, rest, hm, heq⟩
  · rw [heq]
    refine ⟨?_, List.pairwise_singleton _ _, ?_, ?_⟩
    · intro c hc
      rw [List.mem_singleton] at hc
      subst hc
      exact ⟨⟨hse, hpw', hbnd'⟩, le_refl _, le_refl _⟩
    · simp [blocksSize, Block.size]
      exact hsz
    · intro x
      rw [covered_cons]
      simp [covered]
  · rw [hm] at hpw' hbnd'
    rcases List.pairwise_cons.mp hpw' with ⟨hp1rel, hpw2⟩
    have h12 : p1.object_id < p2.object_id := hp1rel p2 (List.mem_cons_self _ _)
    have hb1 := hbnd' p1 (List.mem_cons_self _ _)
    have hb2 := hbnd' p2 (List.mem_cons_of_mem _ (List.mem_cons_self _ _))
    have hsm : b.start_id < p2.object_id := by omega
    have hme : p2.object_id < b.end_id := hb2.2
    rw [heq]
    refine ⟨?_, ?_, ?_, ?_⟩
    · intro c hc
      rcases List.mem_cons.mp hc with hc | hc
      · subst hc
        refine ⟨⟨hsm, List.pairwise_singleton _ _, ?_⟩, le_refl _, le_of_lt hme⟩
        intro p hp
        rw [List.mem_singleton] at hp
        subst hp
        exact ⟨hb1.1, h12⟩
      · rw [List.mem_singleton] at hc
        subst hc
        refine ⟨⟨hme, hpw2, ?_⟩, le_of_lt hsm, le_refl _⟩
        intro p hp
        rcases List.mem_cons.mp hp with hp | hp
        · subst hp
          exact ⟨le_refl _, hme⟩
        · rcases List.pairwise_cons.mp hpw2 with ⟨hp2rel, _⟩
          refine ⟨le_of_lt (hp2rel p hp), ?_⟩
          exact (hbnd' p (List.mem_cons_of_mem _ (List.mem_cons_of_mem _ hp))).2
    · refine List.pairwise_cons.mpr ⟨?_, List.pairwise_singleton _ _⟩
      intro c hc
      rw [List.mem_singleton] at hc
      subst hc
      exact ⟨hsm, le_refl _⟩
    · rw [hm] at hsz
      simp [blocksSize, Block.size] at hsz ⊢
      omega
    · intro x
      rw [covered_cons, covered_cons]
      simp only [covered]
      constructor
      · rintro (h | h | h)
        · omega
        · omega
        · simp at h
      · intro h
        by_cases hx : x < p2.object_id
        · exact Or.inl ⟨h.1, hx⟩
        · refine Or.inr (Or.inl ⟨by omega, h.2⟩)

/-! Header-Index walk lemmas. -/

/-- The walk returns `none` exactly when no block's range covers the
id. -/
lemma insertIntoBlocks_none (m oid : Nat) (e : Event) :
    ∀ bs, insertIntoBlocks m oid e bs = none → ¬ covered bs oid := by
  intro bs
  induction bs with
  | nil =>
    intro _
    rintro ⟨c, hc, _⟩
    exact absurd hc (List.not_mem_nil c)
  | cons b bs ih =>
    intro h
    rw [insertIntoBlocks] at h
    by_cases hb : (decide (b.start_id ≤ oid) && decide (oid < b.end_id)) = true
    · rw [if_pos hb] at h
      exact absurd h (by simp)
    · rw [if_neg hb] at h
      have hnb : ¬ (b.start_id ≤ oid ∧ oid < b.end_id) := by
        intro hc
        exact hb (by simp [hc.1, hc.2])
      cases hrec : insertIntoBlocks m oid e bs with
      | some bs2 =>
        rw [hrec] at h
        exact absurd h (by simp)
      | none =>
        intro hcov
        rcases (covered_cons b bs oid).mp hcov with hx | hx
        · exact hnb hx
        · exact ih hrec hx

/-- The bundle of facts preserved by a successful walk: output blocks
well formed, ordered and disjoint, holding exactly one more event,
each contained in some input block's range, and covering exactly what
the input covered. -/
lemma insertIntoBlocks_spec (m oid : Nat) (e : Event) :
    ∀ bs bs', insertIntoBlocks m oid e bs = some bs' →
      (∀ b ∈ bs, b.WF) → List.Pairwise blockLt bs →
      ((∀ c ∈ bs', c.WF) ∧ List.Pairwise blockLt bs' ∧
        blocksSize bs' = blocksSize bs + 1 ∧
        (∀ y ∈ bs', ∃ b ∈ bs, b.start_id ≤ y.start_id ∧ y.end_id ≤ b.end_id) ∧
        (∀ x, covered bs' x ↔ covered bs x)) := by
  intro bs
  induction bs with
  | nil =>
    intro bs' h
    exact absurd h (by simp [insertIntoBlocks])
  | cons b bs ih =>
    intro bs' h hWF hpw
    have hbWF : b.WF := hWF b (List.mem_cons_self _ _)
    have hWFtail : ∀ c ∈ bs, c.WF := fun c hc => hWF c (List.mem_cons_of_mem _ hc)
    rcases List.pairwise_cons.mp hpw with ⟨hrel, hpwtail⟩
    rw [insertIntoBlocks] at h
    by_cases hb : (decide (b.start_id ≤ oid) && decide (oid < b.end_id)) = true
    · rw [if_pos hb] at h
      have hs : b.start_id ≤ oid := by
        simp at hb
        exact hb.1
      have ht : oid < b.end_id := by
        simp at hb
        exact hb.2
      injection h with h
      subst h
      rcases processBlock_WF m oid e b hbWF hs ht with ⟨hcWF, hcpw, hcsz, hccov⟩
      refine ⟨?_, ?_, ?_, ?_, ?_⟩
      · intro c hc
        rcases List.mem_append.mp hc with hc | hc
        · exact (hcWF c hc).1
        · exact hWFtail c hc
      · rw [List.pairwise_append]
        refine ⟨hcpw, hpwtail, ?_⟩
        intro c hc y hy
        rcases hcWF c hc with ⟨⟨hcse, _, _⟩, hcs, hce⟩
        rcases hrel y hy with ⟨hby1, hby2⟩
        exact ⟨by omega, by omega⟩
      · rw [blocksSize_append, blocksSize_cons, hcsz]
        omega
      · intro y hy
        rcases List.mem_append.mp hy with hy | hy
        · exact ⟨b, List.mem_cons_self _ _, (hcWF y hy).2⟩
        · exact ⟨y, List.mem_cons_of_mem _ hy, le_refl _, le_refl _⟩
      · intro x
        rw [covered_append, covered_cons, hccov x]
    · rw [if_neg hb] at h
      cases hrec : insertIntoBlocks m oid e bs with
      | none =>
        rw [hrec] at h
        exact absurd h (by simp)
      | some bs2 =>
        rw [hrec] at h
        injection h with h
        subst h
        rcases ih bs2 hrec hWFtail hpwtail with ⟨ihWF, ihpw, ihsz, ihcont, ihcov⟩
        refine ⟨?_, ?_, ?_, ?_, ?_⟩
        · intro c hc
          rcases List.mem_cons.mp hc with hc | hc
          · subst hc
            exact hbWF
          · exact ihWF c hc
        · refine List.pairwise_cons.mpr ⟨?_, ihpw⟩
          intro y hy
          rcases ihcont y hy with ⟨b2, hb2, hb2s, hb2e⟩
          rcases hrel b2 hb2 with ⟨hr1, hr2⟩
          exact ⟨by omega, by omega⟩
        · rw [blocksSize_cons, blocksSize_cons, ihsz]
          omega
        · intro y hy
          rcases List.mem_cons.mp hy with hy | hy
          · subst hy
            exact ⟨y, List.mem_cons_self _ _, le_refl _, le_refl _⟩
          · rcases ihcont y hy with ⟨b2, hb2, hb2s, hb2e⟩
            exact ⟨b2, List.mem_cons_of_mem _ hb2, hb2s, hb2e⟩
        · intro x
          rw [covered_cons, covered_cons, ihcov x]

/-! Block-creation lemmas. -/

/-- Membership in a sorted insertion. -/
lemma mem_insertBlockSorted (bs : List Block) (nb y : Block) :
    y ∈ insertBlockSorted bs nb ↔ y ∈ bs ∨ y = nb := by
  induction bs with
  | nil => simp [insertBlockSorted]
  | cons b bs ih =>
    rw [insertBlockSorted]
    by_cases h : nb.start_id < b.start_id
    · rw [if_pos h]
      simp [List.mem_cons]
      tauto
    · rw [if_neg h]
      simp [List.mem_cons, ih]
      tauto

/-- Event totals over a sorted insertion. -/
lemma blocksSize_insertBlockSorted (bs : List Block) (nb : Block) :
    blocksSize (insertBlockSorted bs nb) = blocksSize bs + nb.size := by
  induction bs with
  | nil => simp [insertBlockSorted, blocksSize]
  | cons b bs ih =>
    rw [insertBlockSorted]
    by_cases h : nb.start_id < b.start_id
    · rw [if_pos h, blocksSize_cons, blocksSize_cons]
      omega
    · rw [if_neg h, blocksSize_cons, ih, blocksSize_cons]
      omega

/-- Sorted insertion of a block disjoint from every present block
keeps the Header Index sorted and disjoint. -/
lemma pairwise_insertBlockSorted (bs : List Block) (nb : Block)
    (hwf : ∀ b ∈ bs, b.start_id < b.end_id) (hnb : nb.start_id < nb.end_id)
    (hdisj : ∀ b ∈ bs, b.end_id ≤ nb.start_id ∨ nb.end_id ≤ b.start_id)
    (hpw : List.Pairwise blockLt bs) :
    List.Pairwise blockLt (insertBlockSorted bs nb) := by
  induction bs with
  | nil => exact List.pairwise_singleton _ _
  | cons b bs ih =>
    have hbwf : b.start_id < b.end_id := hwf b (List.mem_cons_self _ _)
    rcases List.pairwise_cons.mp hpw with ⟨hrel, hpwtail⟩
    rw [insertBlockSorted]
    by_cases h : nb.start_id < b.start_id
    · rw [if_pos h]
      have hnbb : nb.end_id ≤ b.start_id := by
        rcases hdisj b (List.mem_cons_self _ _) with hd | hd
        · omega
        · exact hd
      refine List.pairwise_cons.mpr ⟨?_, hpw⟩
      intro y hy
      rcases List.mem_cons.mp hy with hy | hy
      · subst hy
        exact ⟨h, hnbb⟩
      · rcases hrel y hy with ⟨hr1, hr2⟩
        exact ⟨by omega, by omega⟩
    · rw [if_neg h]
      have hbnb : b.end_id ≤ nb.start_id := by
        rcases hdisj b (List.mem_cons_self _ _) with hd | hd
        · exact hd
        · omega
      refine List.pairwise_cons.mpr ⟨?_, ?_⟩
      · intro y hy
        rcases (mem_insertBlockSorted bs nb y).mp hy with hy | hy
        · exact hrel y hy
        · subst hy
          exact ⟨by omega, hbnb⟩
      · exact ih (fun c hc => hwf c (List.mem_cons_of_mem _ hc))
          (fun c hc => hdisj c (List.mem_cons_of_mem _ hc)) hpwtail

/-- In a reachable state, a window containing an uncovered id touches
no block: every block lies entirely before or after that window. -/
lemma uncovered_window_disjoint (w : Nat) (hw : 0 < w) (bs : List Block)
    (oid : Nat) (hwin : ∀ b ∈ bs, b.end_id ≤ windowStart w b.start_id + w)
    (hcov : ∀ x, touched w bs x → covered bs x) (hnc : ¬ covered bs oid) :
    ∀ b ∈ bs, b.end_id ≤ windowStart w oid ∨ windowStart w oid + w ≤ b.start_id := by
  intro b hb
  by_contra hcon
  push_neg at hcon
  rcases hcon with ⟨h1, h2⟩
  have hbw := hwin b hb
  have hws : windowStart w b.start_id = windowStart w oid := by
    apply windowStart_eq_of_overlap w _ _ hw
    · have := windowStart_le w b.start_id
      omega
    · omega
  exact hnc (hcov oid ⟨b, hb, hws⟩)

/-- The master step: from any reachable state, one insertion preserves
the invariant and stores exactly one more event. -/
theorem addEvent_preserves (w m : Nat) (hw : 0 < w) (st : OFile) (e : Event)
    (h : OFile.WF w st) :
    OFile.WF w (addEvent w m st e) ∧
    blocksSize (addEvent w m st e).blocks = blocksSize st.blocks + 1 := by
  rcases h with ⟨hWF, hwin, hpw, hcov⟩
  rw [addEvent]
  cases hins : insertIntoBlocks m e.object_id e st.blocks with
  | some bs' =>
    rcases insertIntoBlocks_spec m e.object_id e st.blocks bs' hins hWF hpw with
      ⟨hWF', hpw', hsz', hcont', hcov'⟩
    have hwineq : ∀ y ∈ bs', ∃ b ∈ st.blocks,
        windowStart w y.start_id = windowStart w b.start_id ∧ y.end_id ≤ b.end_id := by
      intro y hy
      rcases hcont' y hy with ⟨b, hb, hbs, hbe⟩
      have hyWF := hWF' y hy
      have hbww := hwin b hb
      refine ⟨b, hb, ?_, hbe⟩
      apply windowStart_eq_of_mem w _ _ hw
      · exact le_trans (windowStart_le w b.start_id) hbs
      · have := hyWF.1
        omega
    refine ⟨⟨hWF', ?_, hpw', ?_⟩, hsz'⟩
    · intro y hy
      rcases hwineq y hy with ⟨b, hb, hweq, hbe⟩
      have hbww := hwin b hb
      rw [hweq]
      omega
    · intro x hx
      rcases hx with ⟨y, hy, hxy⟩
      rcases hwineq y hy with ⟨b, hb, hweq, _⟩
      have : touched w st.blocks x := ⟨b, hb, by rw [← hweq]; exact hxy⟩
      exact (hcov' x).mpr (hcov x this)
  | none =>
    have hnc : ¬ covered st.blocks e.object_id :=
      insertIntoBlocks_none m e.object_id e st.blocks hins
    have hdisj := uncovered_window_disjoint w hw st.blocks e.object_id hwin hcov hnc
    have hIdem : windowStart w (windowStart w e.object_id) =
        windowStart w e.object_id := windowStart_idem w e.object_id hw
    have hle := windowStart_le w e.object_id
    have hlt := lt_windowStart_add w e.object_id hw
    refine ⟨⟨?_, ?_, ?_, ?_⟩, ?_⟩
    · intro y hy
      rcases (mem_insertBlockSorted _ _ y).mp hy with hy | hy
      · exact hWF y hy
      · subst hy
        refine ⟨show windowStart w e.object_id < windowStart w e.object_id + w
          by omega, List.pairwise_singleton _ _, ?_⟩
        intro p hp
        rw [List.mem_singleton] at hp
        subst hp
        exact ⟨hle, hlt⟩
    · intro y hy
      rcases (mem_insertBlockSorted _ _ y).mp hy with hy | hy
      · exact hwin y hy
      · subst hy
        rw [hIdem]
    · refine pairwise_insertBlockSorted st.blocks _ ?_
        (show windowStart w e.object_id < windowStart w e.object_id + w by omega)
        hdisj hpw
      intro b hb
      exact (hWF b hb).1
    · intro x hx
      rcases hx with ⟨y, hy, hxy⟩
      rcases (mem_insertBlockSorted _ _ y).mp hy with hy | hy
      · rcases hcov x ⟨y, hy, hxy⟩ with ⟨c, hc, hcx⟩
        exact ⟨c, (mem_insertBlockSorted _ _ c).mpr (Or.inl hc), hcx⟩
      · subst hy
        rw [hIdem] at hxy
        refine ⟨_, (mem_insertBlockSorted _ _ _).mpr (Or.inr rfl), ?_, ?_⟩
        · show windowStart w e.object_id ≤ x
          have := windowStart_le w x
          omega
        · show x < windowStart w e.object_id + w
          have := lt_windowStart_add w x hw
          omega
    · rw [blocksSize_insertBlockSorted]
      have : Block.size ⟨windowStart w e.object_id, windowStart w e.object_id + w,
          [⟨e.object_id, [e]⟩]⟩ = 1 := rfl
      omega

/-- A fresh ObjectFile satisfies the invariant. -/
lemma OFile_create_WF (w : Nat) : OFile.WF w OFile.create := by
  refine ⟨?_, ?_, List.Pairwise.nil, ?_⟩
  · intro b hb
    exact absurd hb (List.not_mem_nil b)
  · intro b hb
    exact absurd hb (List.not_mem_nil b)
  · rintro x ⟨b, hb, _⟩
    exact absurd hb (List.not_mem_nil b)

/-- Folding a run of insertions preserves the invariant and counts
every inserted event exactly once. -/
lemma addEvents_preserves (w m : Nat) (hw : 0 < w) :
    ∀ (es : List Event) (st : OFile), OFile.WF w st →
      OFile.WF w (OFile.addEvents w m st es) ∧
      blocksSize (OFile.addEvents w m st es).blocks =
        blocksSize st.blocks + es.length := by
  intro es
  induction es with
  | nil =>
    intro st h
    exact ⟨h, rfl⟩
  | cons e es ih =>
    intro st h
    rcases addEvent_preserves w m hw st e h with ⟨h1, h2⟩
    rcases ih (addEvent w m st e) h1 with ⟨h3, h4⟩
    refine ⟨h3, ?_⟩
    show blocksSize (OFile.addEvents w m (addEvent w m st e) es).blocks =
      blocksSize st.blocks + (e :: es).length
    rw [h4, h2]
    simp
    omega

/-- A drained path scan counts each path's events. -/
lemma pathsScan_length (ps : List Path) :
    ((ps.map (fun p => Cursor.drain (Cursor.create p))).flatten).length =
      (ps.map (fun p => p.events.length)).sum := by
  induction ps with
  | nil => rfl
  | cons p ps ih =>
    show (Cursor.drain (Cursor.create p) ++
        (ps.map (fun p => Cursor.drain (Cursor.create p))).flatten).length =
      p.events.length + (ps.map (fun p => p.events.length)).sum
    rw [List.length_append, Cursor.drain_create, ih]

/-- The full PathIterator/Cursor scan visits exactly the stored
events. -/
lemma fullScan_length (st : OFile) :
    (OFile.fullScan st).length = blocksSize st.blocks := by
  rw [OFile.fullScan, blocksSize]
  have h : ∀ bs : List Block,
      ((bs.map (fun b =>
        (b.paths.map (fun p => Cursor.drain (Cursor.create p))).flatten)).flatten).length =
      (bs.map Block.size).sum := by
    intro bs
    induction bs with
    | nil => rfl
    | cons b bs ih =>
      simp only [List.map_cons, List.flatten_cons, List.length_append, ih]
      rw [pathsScan_length]
      simp [Block.size]
  exact h st.blocks

/-- Claim C5: for every window width, every `max_block_size` and every
run of insertions into a fresh ObjectFile via the (spec-modelled)
`ObjectFile_add_event` — in particular one with `max_block_size` small
enough to force block splits — the full PathIterator/Cursor scan of
the final state visits exactly as many events as were inserted, and
the Header Index ranges are sorted by start id and pairwise
non-overlapping. -/
theorem c5_split_preservation (w m : Nat) (hw : 0 < w) (es : List Event) :
    (OFile.fullScan (OFile.addEvents w m OFile.create es)).length = es.length ∧
    List.Pairwise (fun a b : Block => a.start_id < b.start_id ∧ a.end_id ≤ b.start_id)
      (OFile.addEvents w m OFile.create es).blocks := by
  rcases addEvents_preserves w m hw es OFile.create (OFile_create_WF w) with ⟨hWF, hsz⟩
  constructor
  · rw [fullScan_length, hsz]
    simp [OFile.create, blocksSize]
  · exact hWF.2.2.1

/-- With window width 8 and `max_block_size` 2, inserting three events
at object ids 1, 2, 3 forces a split: the Header Index ends with two
blocks. -/
lemma split_example_blocks :
    (OFile.addEvents 8 2 OFile.create
      [⟨1, 0, 0⟩, ⟨2, 0, 0⟩, ⟨3, 0, 0⟩]).blocks.length = 2 := by
  decide

/-- Witness for claim C5: the concrete split-forcing run above — the
window width 8 is positive, the scan of the final two-block state
visits exactly the 3 inserted events, and the final ranges are sorted
and disjoint. -/
theorem c5_split_preservation_witness :
    0 < 8 ∧
    (OFile.fullScan (OFile.addEvents 8 2 OFile.create
      [⟨1, 0, 0⟩, ⟨2, 0, 0⟩, ⟨3, 0, 0⟩])).length = 3 ∧
    List.Pairwise (fun a b : Block => a.start_id < b.start_id ∧ a.end_id ≤ b.start_id)
      (OFile.addEvents 8 2 OFile.create [⟨1, 0, 0⟩, ⟨2, 0, 0⟩, ⟨3, 0, 0⟩]).blocks :=
  ⟨by decide,
    (c5_split_preservation 8 2 (by decide) [⟨1, 0, 0⟩, ⟨2, 0, 0⟩, ⟨3, 0, 0⟩]).1,
    (c5_split_preservation 8 2 (by decide) [⟨1, 0, 0⟩, ⟨2, 0, 0⟩, ⟨3, 0, 0⟩]).2⟩

end Sky
